import Mathlib

/-!
Shallow embedding of the secret-santa matching core.

The repository contains two variant implementations of the `SecretSanta`
class: a feasibility-gated backtracking variant (`src/secretSanta.ts`,
"variant A" below) and a randomized generate-and-test variant with a
1000-attempt budget ("variant B" below).  Both share the data model of
`types.ts`.  The definitions below translate those TypeScript functions;
randomness (`Math.random`-driven Fisher-Yates shuffles) is made explicit
as an oracle argument supplying the shuffled order at each use site.
-/

/-- A participant (`types.ts` `Person`): unique id, display name, email. -/
structure Person where
  id : String
  name : String
  email : String
deriving DecidableEq, Repr

/-- One giver-to-receiver edge (`types.ts` `Assignment`). -/
structure Assignment where
  giverId : String
  receiverId : String
deriving DecidableEq, Repr

/-- Constraint set (`types.ts` `Constraints`): forbidden pairs plus optional
group list. -/
structure Constraints where
  illegalPairings : List (String × String)
  groups : Option (List (List String)) := none
deriving DecidableEq, Repr

/-- The failure signals the two variants throw: insufficient participants,
proven infeasibility (variant A precheck), exhausted backtracking search
(variant A), exhausted retry budget (variant B). -/
inductive SantaError where
  | needAtLeastTwoPeople
  | noPossibleAssignment
  | unableToGenerateValidAssignment
  | couldNotFindValidAssignment
deriving DecidableEq, Repr

/-- Default `Person` used to model JavaScript out-of-bounds indexing. -/
def dPerson : Person := ⟨"", "", ""⟩

/-- `this.people[i].id`. -/
def idAt (people : List Person) (i : Nat) : String :=
  (people.getD i dPerson).id

/-- `isIllegalPairing` (identical in both variants): some forbidden pair
matches in either direction. -/
def isIllegalPairing (cons : Constraints) (giverId receiverId : String) : Bool :=
  cons.illegalPairings.any fun p =>
    (p.1 == giverId && p.2 == receiverId) || (p.1 == receiverId && p.2 == giverId)

/-- `isWithinSameGroup` (identical in both variants): some declared group
contains both ids. -/
def isWithinSameGroup (cons : Constraints) (personId1 personId2 : String) : Bool :=
  match cons.groups with
  | none => false
  | some gs => gs.any fun group => group.contains personId1 && group.contains personId2

/-! ### Variant B: randomized generate-and-test (`src/unnamed/part_001`) -/

/-- `generateAssignment`: pair `people[i]` with `shuffledReceivers[i]`.
The shuffled receiver list is passed explicitly. -/
def generateAssignment (people shuffled : List Person) : List Assignment :=
  (List.range people.length).map fun i => ⟨idAt people i, idAt shuffled i⟩

/-- `validateAssignment`: every stored edge passes the self / forbidden-pair /
group checks (early-`return false` loop, i.e. a conjunction over edges). -/
def validateAssignment (allowSelf : Bool) (cons : Constraints)
    (assignments : List Assignment) : Bool :=
  assignments.all fun a =>
    !(!allowSelf && a.giverId == a.receiverId) &&
    !(isIllegalPairing cons a.giverId a.receiverId) &&
    !(cons.groups.isSome && isWithinSameGroup cons a.giverId a.receiverId)

/-- The `while (!validAssignment && attempts < maxAttempts)` loop of variant
B's `assign`, with `fuel = 1000 - attempts` made structural; `shuffles k` is
the shuffled copy of `people` produced at attempt `k`.  Returns the final
`(this.assignments, attempts, validAssignment)` triple. -/
def assignBRun (people : List Person) (cons : Constraints) (allowSelf : Bool)
    (shuffles : Nat → List Person) :
    Nat → Nat → Bool → List Assignment → List Assignment × Nat × Bool
  | 0, attemptCount, valid, assignments => (assignments, attemptCount, valid)
  | fuel + 1, attemptCount, valid, assignments =>
    if valid then (assignments, attemptCount, valid)
    else
      let na := generateAssignment people (shuffles attemptCount)
      assignBRun people cons allowSelf shuffles fuel (attemptCount + 1)
        (validateAssignment allowSelf cons na) na

/-- Variant B `assign()`: result plus the final value of the mutable
`this.assignments` field (`assignments0` is its value on entry). -/
def assignB (people : List Person) (cons : Constraints) (allowSelf : Bool)
    (shuffles : Nat → List Person) (assignments0 : List Assignment) :
    Except SantaError (List Assignment) × List Assignment :=
  if people.length < 2 then (Except.error SantaError.needAtLeastTwoPeople, assignments0)
  else
    let r := assignBRun people cons allowSelf shuffles 1000 0 false assignments0
    if r.2.2 then (Except.ok r.1, r.1)
    else (Except.error SantaError.couldNotFindValidAssignment, r.1)

/-! ### Variant A: feasibility-gated backtracking (`src/secretSanta.ts`) -/

/-- `isValidPairing` of variant A.  Note: this variant rejects
`giverId === receiverId` unconditionally; its constructor never reads the
`allowSelfAssignment` config field. -/
def isValidPairing (cons : Constraints) (giverId receiverId : String) : Bool :=
  if giverId == receiverId then false
  else if isIllegalPairing cons giverId receiverId then false
  else if cons.groups.isSome && isWithinSameGroup cons giverId receiverId then false
  else true

/-- The `backtrack(start, current)` helper of `getCombinations`: emit
`current` once it reaches length `k`, else extend with each `i` in
`[start, n)` and recurse with `start = i + 1`.  Recursion is structural on a
fuel argument; since `start` strictly increases at every recursive call, at
`fuel = 0` (depth `n + 1` from the top call) `start > n` holds, where the
iteration range `[start, n)` is already empty, so the fuel cutoff returns
the same `[]` the loop would. -/
def backtrackCombos (n k : Nat) : Nat → Nat → List Nat → List (List Nat)
  | fuel, start, current =>
    if current.length = k then [current]
    else
      match fuel with
      | 0 => []
      | fuel + 1 =>
        (List.range' start (n - start)).flatMap fun i =>
          backtrackCombos n k fuel (i + 1) (current ++ [i])

/-- `getCombinations(n, k)`: all strictly increasing index lists of length
`k` drawn from `[0, n)`. -/
def getCombinations (n k : Nat) : List (List Nat) :=
  backtrackCombos n k (n + 1) 0 []

/-- The `receiverSet` built inside `isAssignmentPossible` for one giver
subset: all receiver indices valid for at least one giver in the subset
(a JS `Set<number>`, so a `Finset`). -/
def receiverSetOf (people : List Person) (cons : Constraints)
    (giverIndices : List Nat) : Finset Nat :=
  (Finset.range people.length).filter fun r =>
    (giverIndices.any fun g => isValidPairing cons (idAt people g) (idAt people r)) = true

/-- `isAssignmentPossible`: Hall-type necessary condition checked for all
giver subsets of size `1 .. min 4 (n / 2)`. -/
def isAssignmentPossible (people : List Person) (cons : Constraints) : Bool :=
  (List.range' 1 (min 4 (people.length / 2))).all fun subsetSize =>
    (getCombinations people.length subsetSize).all fun giverIndices =>
      decide (giverIndices.length ≤ (receiverSetOf people cons giverIndices).card)

/-- The `for (const receiverIdx of receiverIndices)` loop body of
`findMatching`: skip already-assigned receivers and invalid pairings, else
recurse via `next`; first success wins, else fall through to `none`. -/
def tryReceivers (people : List Person) (cons : Constraints) (giverId : String)
    (assigned : List Nat) (cur : List Assignment)
    (next : List Assignment → Option (List Assignment)) :
    List Nat → Option (List Assignment)
  | [] => none
  | r :: rs =>
    if assigned.contains r then tryReceivers people cons giverId assigned cur next rs
    else if !(isValidPairing cons giverId (idAt people r)) then
      tryReceivers people cons giverId assigned cur next rs
    else
      match next (cur ++ [⟨giverId, idAt people r⟩]) with
      | some res => some res
      | none => tryReceivers people cons giverId assigned cur next rs

/-- `new Set(currentAssignments.map(a => people.findIndex(p => p.id ===
a.receiverId)))`, as the underlying index list. -/
def assignedReceiversOf (people : List Person) (cur : List Assignment) : List Nat :=
  cur.map fun a => people.findIdx fun p => p.id == a.receiverId

/-- `findMatching(currentAssignments)` with explicit recursion fuel
(recursion depth is `people.length - cur.length`, so any larger fuel is
exact) and an `oracle` giving the Fisher-Yates-shuffled receiver order
produced at each call. -/
def findMatchingF (people : List Person) (cons : Constraints)
    (oracle : List Assignment → List Nat) :
    Nat → List Assignment → Option (List Assignment)
  | 0, _ => none
  | fuel + 1, cur =>
    if cur.length = people.length then some cur
    else
      tryReceivers people cons (idAt people cur.length)
        (assignedReceiversOf people cur) cur
        (findMatchingF people cons oracle fuel) (oracle cur)

/-- `findMatching` as called by the class (always enough fuel). -/
def findMatching (people : List Person) (cons : Constraints)
    (oracle : List Assignment → List Nat) (cur : List Assignment) :
    Option (List Assignment) :=
  findMatchingF people cons oracle (people.length + 1 - cur.length) cur

/-- `generateAssignmentWithMatching`: Hall precheck (only for `n ≤ 10`),
then backtracking search. -/
def generateAssignmentWithMatching (people : List Person) (cons : Constraints)
    (oracle : List Assignment → List Nat) : Except SantaError (List Assignment) :=
  if people.length ≤ 10 ∧ isAssignmentPossible people cons = false then
    Except.error SantaError.noPossibleAssignment
  else
    match findMatching people cons oracle [] with
    | some l => Except.ok l
    | none => Except.error SantaError.unableToGenerateValidAssignment

/-- Variant A `assign()`. -/
def assignA (people : List Person) (cons : Constraints)
    (oracle : List Assignment → List Nat) : Except SantaError (List Assignment) :=
  if people.length < 2 then Except.error SantaError.needAtLeastTwoPeople
  else generateAssignmentWithMatching people cons oracle

/-- `${giver?.name}` in a template literal: `undefined` prints as the string
`"undefined"`. -/
def personNameOr (o : Option Person) : String :=
  match o with
  | some p => p.name
  | none => "undefined"

/-- Variant A `getAssignmentsSummary()`. -/
def getAssignmentsSummary (people : List Person) (assignments : List Assignment) : String :=
  if assignments.length = 0 then "No assignments made yet."
  else
    String.intercalate "\n" (assignments.map fun a =>
      personNameOr (people.find? fun p => p.id == a.giverId) ++ " → " ++
        personNameOr (people.find? fun p => p.id == a.receiverId))

/-- A complete valid assignment exists: an injective receiver choice on the
index range with every edge accepted by the constraint evaluator. -/
def ValidAssignmentExists (people : List Person) (cons : Constraints) : Prop :=
  ∃ w : Nat → Nat,
    (∀ i, i < people.length → w i < people.length ∧
      isValidPairing cons (idAt people i) (idAt people (w i)) = true) ∧
    (∀ i j, i < people.length → j < people.length → w i = w j → i = j)

/-- Modelled from the spec: the contract of section 4.1 for the constraint
evaluator, with the configurable self-assignment policy the spec describes
(`Returns false if giverKey == receiverKey and self-assignment is disallowed
(configurable)`), a symmetric forbidden-pair check and a shared-group check. -/
def isValidPairingSpec (allowSelf : Bool) (cons : Constraints)
    (giverKey receiverKey : String) : Bool :=
  !((giverKey == receiverKey && !allowSelf)
    || (cons.illegalPairings.any fun p =>
          (p.1 == giverKey && p.2 == receiverKey) || (p.1 == receiverKey && p.2 == giverKey))
    || ((cons.groups.getD []).any fun group =>
          group.contains giverKey && group.contains receiverKey))

/-! ### Helper lemmas -/

theorem beq_swap (a b : String) : (a == b) = (b == a) := by
  rcases Decidable.em (a = b) with h | h
  · subst h; rfl
  · have h1 : (a == b) = false := by simpa [beq_iff_eq] using h
    have h2 : (b == a) = false := by simpa [beq_iff_eq] using fun e => h e.symm
    rw [h1, h2]

theorem isIllegalPairing_symm (cons : Constraints) (g r : String) :
    isIllegalPairing cons g r = isIllegalPairing cons r g := by
  unfold isIllegalPairing
  congr 1
  funext p
  rw [Bool.or_comm]

theorem isWithinSameGroup_symm (cons : Constraints) (g r : String) :
    isWithinSameGroup cons g r = isWithinSameGroup cons r g := by
  unfold isWithinSameGroup
  cases cons.groups with
  | none => rfl
  | some gs =>
    show (gs.any fun group => group.contains g && group.contains r)
      = (gs.any fun group => group.contains r && group.contains g)
    congr 1
    funext grp
    rw [Bool.and_comm]

theorem groupCheck_eq (cons : Constraints) (g r : String) :
    (cons.groups.isSome && isWithinSameGroup cons g r)
      = ((cons.groups.getD []).any fun group => group.contains g && group.contains r) := by
  cases h : cons.groups <;> simp [isWithinSameGroup, h]

theorem isValidPairingSpec_eq (allowSelf : Bool) (cons : Constraints) (g r : String) :
    isValidPairingSpec allowSelf cons g r
      = !((g == r && !allowSelf) || isIllegalPairing cons g r
          || (cons.groups.isSome && isWithinSameGroup cons g r)) := by
  unfold isValidPairingSpec isIllegalPairing
  rw [groupCheck_eq]

/-! ### C9: symmetry of the constraint evaluator -/

/-- C9: the constraint evaluation is symmetric in its two arguments:
`isValidPairing g r = isValidPairing r g`; in particular the forbidden-pair
check and the shared-group check block both directions of a pair. -/
theorem C9_isValidPairing_symm (cons : Constraints) (g r : String) :
    isValidPairing cons g r = isValidPairing cons r g := by
  unfold isValidPairing
  rw [beq_swap g r, isIllegalPairing_symm cons g r, isWithinSameGroup_symm cons g r]

/-! ### C10: summary string before any assignment -/

/-- C10: in the backtracking variant, `getAssignmentsSummary()` on an empty
stored assignment list returns exactly `"No assignments made yet."`, not the
empty string. -/
theorem C10_summary_empty (people : List Person) :
    getAssignmentsSummary people [] = "No assignments made yet." ∧
    getAssignmentsSummary people [] ≠ "" := by
  have h : getAssignmentsSummary people [] = "No assignments made yet." := rfl
  exact ⟨h, by rw [h]; decide⟩

/-! ### C5: the constraint evaluator contract -/

/-- C5 counterexample: the claim says the self-assignment policy is
configurable, so that with self-assignment allowed key equality alone does
not invalidate a pairing; but variant A's `isValidPairing` ignores the
`allowSelfAssignment` configuration and rejects `"a" = "a"` even though the
spec-modelled evaluator with `allowSelf = true` accepts it. -/
theorem C5_counterexample :
    isValidPairing ⟨[], none⟩ "a" "a"
      ≠ isValidPairingSpec true ⟨[], none⟩ "a" "a" ∧
    isValidPairing ⟨[], none⟩ "a" "a" = false ∧
    isValidPairingSpec true ⟨[], none⟩ "a" "a" = true := by
  refine ⟨?_, by decide, by decide⟩
  decide

/-- C5 amended: variant A's `isValidPairing` coincides with the spec's
evaluator with self-assignment unconditionally disallowed (the configurable
flag is ignored by that variant); variant B's per-edge validation
(`validateAssignment` on a single edge) realises the spec's evaluator
including the configurable self-assignment policy. -/
theorem C5_amended (allowSelf : Bool) (cons : Constraints) (g r : String) :
    isValidPairing cons g r = isValidPairingSpec false cons g r ∧
    validateAssignment allowSelf cons [⟨g, r⟩] = isValidPairingSpec allowSelf cons g r := by
  rw [isValidPairingSpec_eq, isValidPairingSpec_eq]
  constructor
  · cases hgr : g == r <;>
      cases hil : isIllegalPairing cons g r <;>
      cases hgp : cons.groups.isSome && isWithinSameGroup cons g r <;>
      simp [isValidPairing, hgr, hil, hgp]
  · have hv : validateAssignment allowSelf cons [⟨g, r⟩]
        = (!(!allowSelf && g == r) && !(isIllegalPairing cons g r) &&
           !(cons.groups.isSome && isWithinSameGroup cons g r)) := by
      simp [validateAssignment]
    rw [hv]
    generalize (g == r) = x
    generalize isIllegalPairing cons g r = y
    generalize (cons.groups.isSome && isWithinSameGroup cons g r) = z
    cases x <;> cases y <;> cases z <;> cases allowSelf <;> rfl

/-! ### C7: fewer than two participants -/

/-- C7: with fewer than 2 participants, both variants' `assign()` fail
immediately with the configuration-error signal (a constructor distinct from
the infeasibility and search-exhaustion signals), variant B leaving the
stored assignment state untouched; by program structure the error is raised
before the feasibility check and before any search. -/
theorem C7_too_few (people : List Person) (cons : Constraints)
    (oracle : List Assignment → List Nat) (allowSelf : Bool)
    (shuffles : Nat → List Person) (assignments0 : List Assignment)
    (h : people.length < 2) :
    assignA people cons oracle = Except.error SantaError.needAtLeastTwoPeople ∧
    (assignB people cons allowSelf shuffles assignments0).1
      = Except.error SantaError.needAtLeastTwoPeople ∧
    (assignB people cons allowSelf shuffles assignments0).2 = assignments0 ∧
    SantaError.needAtLeastTwoPeople ≠ SantaError.noPossibleAssignment ∧
    SantaError.needAtLeastTwoPeople ≠ SantaError.unableToGenerateValidAssignment ∧
    SantaError.needAtLeastTwoPeople ≠ SantaError.couldNotFindValidAssignment := by
  unfold assignA assignB
  rw [if_pos h, if_pos h]
  exact ⟨rfl, rfl, rfl, by decide, by decide, by decide⟩

/-- C7 witness: one participant. -/
theorem C7_too_few_witness :
    assignA [⟨"a", "Alice", "alice@x"⟩] ⟨[], none⟩ (fun _ => [])
      = Except.error SantaError.needAtLeastTwoPeople ∧
    (assignB [⟨"a", "Alice", "alice@x"⟩] ⟨[], none⟩ false (fun _ => []) []).1
      = Except.error SantaError.needAtLeastTwoPeople ∧
    (assignB [⟨"a", "Alice", "alice@x"⟩] ⟨[], none⟩ false (fun _ => []) []).2 = [] ∧
    SantaError.needAtLeastTwoPeople ≠ SantaError.noPossibleAssignment ∧
    SantaError.needAtLeastTwoPeople ≠ SantaError.unableToGenerateValidAssignment ∧
    SantaError.needAtLeastTwoPeople ≠ SantaError.couldNotFindValidAssignment :=
  C7_too_few [⟨"a", "Alice", "alice@x"⟩] ⟨[], none⟩ (fun _ => []) false
    (fun _ => []) [] (by decide)

/-! ### Variant B: loop lemmas -/

theorem assignBRun_attempts_le (people : List Person) (cons : Constraints)
    (allowSelf : Bool) (shuffles : Nat → List Person) :
    ∀ fuel attemptCount valid assignments,
      (assignBRun people cons allowSelf shuffles fuel attemptCount valid assignments).2.1
        ≤ attemptCount + fuel := by
  intro fuel
  induction fuel with
  | zero => intro att valid a; simp [assignBRun]
  | succ f ih =>
    intro att valid a
    cases valid with
    | true => simp [assignBRun]
    | false =>
      simp only [assignBRun, Bool.false_eq_true, if_false]
      have := ih (att + 1) (validateAssignment allowSelf cons
        (generateAssignment people (shuffles att)))
        (generateAssignment people (shuffles att))
      omega

theorem assignBRun_valid_shape (people : List Person) (cons : Constraints)
    (allowSelf : Bool) (shuffles : Nat → List Person) :
    ∀ fuel attemptCount valid assignments,
      (valid = true → validateAssignment allowSelf cons assignments = true ∧
        ∃ k, assignments = generateAssignment people (shuffles k)) →
      (assignBRun people cons allowSelf shuffles fuel attemptCount valid assignments).2.2 = true →
      validateAssignment allowSelf cons
          (assignBRun people cons allowSelf shuffles fuel attemptCount valid assignments).1 = true ∧
        ∃ k, (assignBRun people cons allowSelf shuffles fuel attemptCount valid assignments).1
          = generateAssignment people (shuffles k) := by
  intro fuel
  induction fuel with
  | zero =>
    intro att valid a hpre hv
    simp only [assignBRun] at hv ⊢
    exact hpre hv
  | succ f ih =>
    intro att valid a hpre hv
    cases valid with
    | true =>
      simp only [assignBRun, if_true] at hv ⊢
      exact hpre rfl
    | false =>
      simp only [assignBRun, Bool.false_eq_true, if_false] at hv ⊢
      exact ih (att + 1) _ _ (fun h => ⟨h, att, rfl⟩) hv

theorem assignBRun_all_fail (people : List Person) (cons : Constraints)
    (allowSelf : Bool) (shuffles : Nat → List Person) :
    ∀ fuel attemptCount assignments, 1 ≤ fuel →
      (∀ k, k < attemptCount + fuel →
        validateAssignment allowSelf cons (generateAssignment people (shuffles k)) = false) →
      assignBRun people cons allowSelf shuffles fuel attemptCount false assignments
        = (generateAssignment people (shuffles (attemptCount + fuel - 1)),
           attemptCount + fuel, false) := by
  intro fuel
  induction fuel with
  | zero => intro att a h1; omega
  | succ f ih =>
    intro att a _ hfail
    have hstep : validateAssignment allowSelf cons
        (generateAssignment people (shuffles att)) = false :=
      hfail att (by omega)
    simp only [assignBRun, Bool.false_eq_true, if_false, hstep]
    cases f with
    | zero => simp [assignBRun]
    | succ f' =>
      have := ih (att + 1) (generateAssignment people (shuffles att)) (by omega)
        (fun k hk => hfail k (by omega))
      rw [this]
      have e1 : att + 1 + (f' + 1) - 1 = att + (f' + 1 + 1) - 1 := by omega
      have e2 : att + 1 + (f' + 1) = att + (f' + 1 + 1) := by omega
      rw [e1, e2]

/-! ### C8: bounded attempts in variant B -/

/-- C8: the generate-and-test variant always terminates within the
1000-attempt budget (the final attempt counter never exceeds 1000), and if
none of the 1000 generate-and-validate attempts yields a valid assignment it
reports failure with the search-exhaustion signal. -/
theorem C8_bounded_attempts (people : List Person) (cons : Constraints)
    (allowSelf : Bool) (shuffles : Nat → List Person) (assignments0 : List Assignment)
    (h2 : 2 ≤ people.length) :
    (assignBRun people cons allowSelf shuffles 1000 0 false assignments0).2.1 ≤ 1000 ∧
    ((∀ k, k < 1000 →
        validateAssignment allowSelf cons (generateAssignment people (shuffles k)) = false) →
      (assignB people cons allowSelf shuffles assignments0).1
        = Except.error SantaError.couldNotFindValidAssignment) := by
  constructor
  · simpa using assignBRun_attempts_le people cons allowSelf shuffles 1000 0 false assignments0
  · intro hfail
    have hrun := assignBRun_all_fail people cons allowSelf shuffles 1000 0 assignments0
      (by omega) (fun k hk => hfail k (by omega))
    unfold assignB
    rw [if_neg (by omega)]
    simp [hrun]

/-! ### Concrete instances used by witnesses -/

def pA : Person := ⟨"a", "Alice", "alice@example.com"⟩

def pB : Person := ⟨"b", "Bob", "bob@example.com"⟩

def people2 : List Person := [pA, pB]

/-- Constraints forbidding the only non-self pair of `people2`: no valid
assignment exists. -/
def cons2 : Constraints := ⟨[("a", "b")], none⟩

/-- C8 witness: two participants whose only cross pair is forbidden, with the
identity shuffle at every attempt; the budget is exhausted and the failure
signal raised. -/
theorem C8_bounded_attempts_witness :
    (assignBRun people2 cons2 false (fun _ => people2) 1000 0 false []).2.1 ≤ 1000 ∧
    (assignB people2 cons2 false (fun _ => people2) []).1
      = Except.error SantaError.couldNotFindValidAssignment := by
  have hone : validateAssignment false cons2 (generateAssignment people2 people2) = false := by
    decide
  exact ⟨(C8_bounded_attempts people2 cons2 false (fun _ => people2) [] (by decide)).1,
    (C8_bounded_attempts people2 cons2 false (fun _ => people2) [] (by decide)).2
      (fun _ _ => hone)⟩

/-! ### C4: state after a failed `assign()` -/

/-- C4: in the generate-and-test variant, a failed `assign()` does NOT leave
the stored assignment state absent or unchanged: with two participants whose
only cross pair is forbidden (and the identity shuffle at every attempt),
`assign()` throws the exhaustion error yet `this.assignments` ends up holding
the last generated candidate `[a→a, b→b]`, a nonempty, constraint-violating
assignment observable through `getAssignmentsSummary`/`generateEmailFiles`. -/
theorem C4_failed_assign_keeps_invalid_state :
    (assignB people2 cons2 false (fun _ => people2) []).1
      = Except.error SantaError.couldNotFindValidAssignment ∧
    (assignB people2 cons2 false (fun _ => people2) []).2
      = [⟨"a", "a"⟩, ⟨"b", "b"⟩] ∧
    (assignB people2 cons2 false (fun _ => people2) []).2 ≠ ([] : List Assignment) ∧
    validateAssignment false cons2
      (assignB people2 cons2 false (fun _ => people2) []).2 = false := by
  have hone : validateAssignment false cons2 (generateAssignment people2 people2) = false := by
    decide
  have hrun := assignBRun_all_fail people2 cons2 false (fun _ => people2) 1000 0 []
    (by omega) (fun _ _ => hone)
  have hB : assignB people2 cons2 false (fun _ => people2) []
      = (Except.error SantaError.couldNotFindValidAssignment,
         generateAssignment people2 people2) := by
    simp only [assignB]
    rw [if_neg (by decide)]
    simp [hrun]
  rw [hB]
  exact ⟨rfl, by decide, by decide, by decide⟩

/-! ### Variant B: shape of successful results -/

theorem range_map_idAt (people : List Person) :
    (List.range people.length).map (idAt people) = people.map Person.id := by
  apply List.ext_get
  · simp
  · intro k h1 h2
    simp only [List.get_eq_getElem, List.getElem_map, List.getElem_range]
    have hk : k < people.length := by simpa using h2
    simp [idAt, List.getD_eq_getElem _ _ hk, List.getElem?_eq_getElem hk]

theorem generateAssignment_length (people shuffled : List Person) :
    (generateAssignment people shuffled).length = people.length := by
  simp [generateAssignment]

theorem generateAssignment_givers (people shuffled : List Person) :
    (generateAssignment people shuffled).map Assignment.giverId = people.map Person.id := by
  unfold generateAssignment
  rw [List.map_map, ← range_map_idAt]
  rfl

theorem generateAssignment_receivers (people shuffled : List Person)
    (hlen : shuffled.length = people.length) :
    (generateAssignment people shuffled).map Assignment.receiverId
      = shuffled.map Person.id := by
  unfold generateAssignment
  rw [List.map_map, ← range_map_idAt shuffled, hlen]
  rfl

theorem assignB_ok (people : List Person) (cons : Constraints) (allowSelf : Bool)
    (shuffles : Nat → List Person) (assignments0 : List Assignment)
    (l : List Assignment) (st' : List Assignment)
    (h : assignB people cons allowSelf shuffles assignments0 = (Except.ok l, st')) :
    validateAssignment allowSelf cons l = true ∧
    ∃ k, l = generateAssignment people (shuffles k) := by
  simp only [assignB] at h
  by_cases hlt : people.length < 2
  · rw [if_pos hlt] at h
    simp at h
  · rw [if_neg hlt] at h
    cases hr : (assignBRun people cons allowSelf shuffles 1000 0 false assignments0).2.2 with
    | false => rw [hr] at h; simp at h
    | true =>
      rw [hr] at h
      rw [if_pos rfl] at h
      rw [Prod.ext_iff] at h
      obtain ⟨h1, h2⟩ := h
      injection h1 with hl
      rw [← hl]
      exact assignBRun_valid_shape people cons allowSelf shuffles 1000 0 false assignments0
        (fun hh => (Bool.false_ne_true hh).elim) hr

/-! ### Variant A: soundness of the backtracking search -/

theorem tryReceivers_eq_some (people : List Person) (cons : Constraints)
    (giverId : String) (assigned : List Nat) (cur : List Assignment)
    (next : List Assignment → Option (List Assignment)) :
    ∀ rl res, tryReceivers people cons giverId assigned cur next rl = some res →
      ∃ r, r ∈ rl ∧ assigned.contains r = false ∧
        isValidPairing cons giverId (idAt people r) = true ∧
        next (cur ++ [⟨giverId, idAt people r⟩]) = some res := by
  intro rl
  induction rl with
  | nil => intro res h; simp [tryReceivers] at h
  | cons r rs ih =>
    intro res h
    by_cases h1 : assigned.contains r = true
    · rw [tryReceivers, if_pos h1] at h
      obtain ⟨r', hmem, hc, hv, hn⟩ := ih res h
      exact ⟨r', List.mem_cons_of_mem r hmem, hc, hv, hn⟩
    · have h1' : assigned.contains r = false := by
        cases hc : assigned.contains r
        · rfl
        · exact absurd hc h1
      cases hv : isValidPairing cons giverId (idAt people r) with
      | false =>
        rw [tryReceivers, if_neg h1, if_pos (by rw [hv]; rfl)] at h
        obtain ⟨r', hmem, hc, hv', hn⟩ := ih res h
        exact ⟨r', List.mem_cons_of_mem r hmem, hc, hv', hn⟩
      | true =>
        rw [tryReceivers, if_neg h1, if_neg (by rw [hv]; simp)] at h
        cases hn : next (cur ++ [⟨giverId, idAt people r⟩]) with
        | some res0 =>
          rw [hn] at h
          have : res0 = res := by injection h
          exact ⟨r, List.mem_cons_self r rs, h1', hv, by rw [hn, this]⟩
        | none =>
          rw [hn] at h
          obtain ⟨r', hmem, hc, hv', hn'⟩ := ih res h
          exact ⟨r', List.mem_cons_of_mem r hmem, hc, hv', hn'⟩

theorem findMatchingF_some_length (people : List Person) (cons : Constraints)
    (oracle : List Assignment → List Nat) :
    ∀ fuel cur l, findMatchingF people cons oracle fuel cur = some l →
      l.length = people.length := by
  intro fuel
  induction fuel with
  | zero => intro cur l h; simp [findMatchingF] at h
  | succ f ih =>
    intro cur l h
    by_cases hlen : cur.length = people.length
    · rw [findMatchingF, if_pos hlen] at h
      have : cur = l := by injection h
      rw [← this, hlen]
    · rw [findMatchingF, if_neg hlen] at h
      obtain ⟨r, _, _, _, hn⟩ := tryReceivers_eq_some people cons _ _ _ _ _ l h
      exact ih _ l hn

theorem findMatchingF_some_edges (people : List Person) (cons : Constraints)
    (oracle : List Assignment → List Nat) :
    ∀ fuel cur l, findMatchingF people cons oracle fuel cur = some l →
      (∀ a ∈ cur, isValidPairing cons a.giverId a.receiverId = true) →
      ∀ a ∈ l, isValidPairing cons a.giverId a.receiverId = true := by
  intro fuel
  induction fuel with
  | zero => intro cur l h; simp [findMatchingF] at h
  | succ f ih =>
    intro cur l h hcur
    by_cases hlen : cur.length = people.length
    · rw [findMatchingF, if_pos hlen] at h
      have : cur = l := by injection h
      rw [← this]; exact hcur
    · rw [findMatchingF, if_neg hlen] at h
      obtain ⟨r, _, _, hv, hn⟩ := tryReceivers_eq_some people cons _ _ _ _ _ l h
      refine ih _ l hn ?_
      intro a ha
      rcases List.mem_append.mp ha with hmem | hmem
      · exact hcur a hmem
      · rw [List.mem_singleton.mp hmem]
        exact hv

theorem findMatchingF_some_givers (people : List Person) (cons : Constraints)
    (oracle : List Assignment → List Nat) :
    ∀ fuel cur l, findMatchingF people cons oracle fuel cur = some l →
      cur.map Assignment.giverId = (List.range cur.length).map (idAt people) →
      l.map Assignment.giverId = (List.range l.length).map (idAt people) := by
  intro fuel
  induction fuel with
  | zero => intro cur l h; simp [findMatchingF] at h
  | succ f ih =>
    intro cur l h hcur
    by_cases hlen : cur.length = people.length
    · rw [findMatchingF, if_pos hlen] at h
      have : cur = l := by injection h
      rw [← this]; exact hcur
    · rw [findMatchingF, if_neg hlen] at h
      obtain ⟨r, _, _, _, hn⟩ := tryReceivers_eq_some people cons _ _ _ _ _ l h
      refine ih _ l hn ?_
      rw [List.map_append, hcur, List.length_append]
      simp [List.range_succ]

theorem idAt_eq (people : List Person) (j : Nat) (hj : j < people.length) :
    idAt people j = people[j].id := by
  simp [idAt, List.getD_eq_getElem _ _ hj, List.getElem?_eq_getElem hj]

theorem findIdx_id_beq (people : List Person)
    (hnd : (people.map Person.id).Nodup) (j : Nat) (hj : j < people.length) :
    (people.findIdx fun p => p.id == idAt people j) = j := by
  refine (List.findIdx_eq hj).mpr ⟨?_, ?_⟩
  · rw [idAt_eq people j hj]
    simp
  · intro k hk
    have hkj : k < people.length := lt_trans hk hj
    have hne : people[k].id ≠ people[j].id := by
      intro he
      have hk' : k < (people.map Person.id).length := by simpa using hkj
      have hj' : j < (people.map Person.id).length := by simpa using hj
      have h1 : (people.map Person.id).get ⟨k, hk'⟩ = (people.map Person.id).get ⟨j, hj'⟩ := by
        simp only [List.get_eq_getElem, List.getElem_map]
        exact he
      rw [List.get_eq_getElem, List.get_eq_getElem] at h1
      have h2 := (hnd.getElem_inj_iff).mp h1
      have h3 : k = j := h2
      omega
    rw [idAt_eq people j hj]
    exact beq_eq_false_iff_ne.mpr hne

theorem assignedReceiversOf_eq (people : List Person)
    (hnd : (people.map Person.id).Nodup) (cur : List Assignment) (js : List Nat)
    (hcur : cur.map Assignment.receiverId = js.map (idAt people))
    (hb : ∀ j ∈ js, j < people.length) :
    assignedReceiversOf people cur = js := by
  have h1 : assignedReceiversOf people cur
      = (cur.map Assignment.receiverId).map
          (fun s => people.findIdx fun p => p.id == s) := by
    unfold assignedReceiversOf
    rw [List.map_map]
    rfl
  rw [h1, hcur, List.map_map]
  calc js.map ((fun s => people.findIdx fun p => p.id == s) ∘ idAt people)
      = js.map id := List.map_congr_left (fun j hj => findIdx_id_beq people hnd j (hb j hj))
    _ = js := List.map_id js

theorem findMatchingF_some_receivers (people : List Person) (cons : Constraints)
    (oracle : List Assignment → List Nat)
    (hnd : (people.map Person.id).Nodup)
    (horb : ∀ cur r, r ∈ oracle cur → r < people.length) :
    ∀ fuel cur l, findMatchingF people cons oracle fuel cur = some l →
      ∀ js : List Nat, cur.map Assignment.receiverId = js.map (idAt people) →
        js.Nodup → (∀ j ∈ js, j < people.length) →
        ∃ js' : List Nat, l.map Assignment.receiverId = js'.map (idAt people) ∧
          js'.Nodup ∧ (∀ j ∈ js', j < people.length) ∧ js'.length = l.length := by
  intro fuel
  induction fuel with
  | zero => intro cur l h; simp [findMatchingF] at h
  | succ f ih =>
    intro cur l h js hcur hnds hb
    by_cases hlen : cur.length = people.length
    · rw [findMatchingF, if_pos hlen] at h
      have hcl : cur = l := by injection h
      subst hcl
      refine ⟨js, hcur, hnds, hb, ?_⟩
      have := congrArg List.length hcur
      simpa using this.symm
    · rw [findMatchingF, if_neg hlen] at h
      obtain ⟨r, hrmem, hcont, _, hn⟩ := tryReceivers_eq_some people cons _ _ _ _ _ l h
      have hrlt : r < people.length := horb cur r hrmem
      have hAeq : assignedReceiversOf people cur = js :=
        assignedReceiversOf_eq people hnd cur js hcur hb
      have hrnot : r ∉ js := by
        rw [← hAeq]
        simp [List.contains] at hcont
        exact hcont
      refine ih _ l hn (js ++ [r]) ?_ ?_ ?_
      · rw [List.map_append, hcur, List.map_append]
        rfl
      · rw [List.nodup_append]
        exact ⟨hnds, List.nodup_singleton r,
          fun a ha hmem => hrnot ((List.mem_singleton.mp hmem) ▸ ha)⟩
      · intro j hj
        rcases List.mem_append.mp hj with hmem | hmem
        · exact hb j hmem
        · rw [List.mem_singleton.mp hmem]
          exact hrlt

theorem assignA_ok (people : List Person) (cons : Constraints)
    (oracle : List Assignment → List Nat) (l : List Assignment)
    (h : assignA people cons oracle = Except.ok l) :
    findMatching people cons oracle [] = some l := by
  unfold assignA at h
  by_cases h2 : people.length < 2
  · rw [if_pos h2] at h
    simp at h
  · rw [if_neg h2] at h
    unfold generateAssignmentWithMatching at h
    by_cases hpre : people.length ≤ 10 ∧ isAssignmentPossible people cons = false
    · rw [if_pos hpre] at h
      simp at h
    · rw [if_neg hpre] at h
      cases hm : findMatching people cons oracle [] with
      | some l0 =>
        rw [hm] at h
        have : l0 = l := by injection h
        rw [this]
      | none =>
        rw [hm] at h
        simp at h

theorem validate_true_edges (allowSelf : Bool) (cons : Constraints)
    (l : List Assignment) (h : validateAssignment allowSelf cons l = true) :
    ∀ a ∈ l, (allowSelf = false → a.giverId ≠ a.receiverId) ∧
      isIllegalPairing cons a.giverId a.receiverId = false ∧
      isWithinSameGroup cons a.giverId a.receiverId = false := by
  intro a ha
  have hone := (List.all_eq_true.mp h) a ha
  simp only [Bool.and_eq_true, Bool.not_eq_true'] at hone
  obtain ⟨⟨h1, h2⟩, h3⟩ := hone
  refine ⟨?_, h2, ?_⟩
  · intro hfalse heq
    rw [hfalse] at h1
    simp [heq] at h1
  · obtain ⟨ip, gr⟩ := cons
    cases gr with
    | none => simp [isWithinSameGroup]
    | some gs => simpa using h3

/-! ### C2: every returned edge satisfies the constraint evaluator -/

/-- C2: every assignment list returned by a successful `assign()` consists of
edges accepted by the constraint evaluator: in the backtracking variant every
edge passes `isValidPairing`; in the generate-and-test variant every edge is
no self-assignment (when disallowed), no forbidden pair in either direction,
and no shared-group pair. -/
theorem C2_edges_satisfy (people : List Person) (cons : Constraints)
    (oracle : List Assignment → List Nat) (allowSelf : Bool)
    (shuffles : Nat → List Person) (assignments0 : List Assignment) :
    (∀ l, assignA people cons oracle = Except.ok l →
      ∀ a ∈ l, isValidPairing cons a.giverId a.receiverId = true) ∧
    (∀ l st', assignB people cons allowSelf shuffles assignments0 = (Except.ok l, st') →
      ∀ a ∈ l, (allowSelf = false → a.giverId ≠ a.receiverId) ∧
        isIllegalPairing cons a.giverId a.receiverId = false ∧
        isWithinSameGroup cons a.giverId a.receiverId = false) := by
  constructor
  · intro l h a ha
    have hm := assignA_ok people cons oracle l h
    unfold findMatching at hm
    exact findMatchingF_some_edges people cons oracle _ [] l hm (by simp) a ha
  · intro l st' h
    exact validate_true_edges allowSelf cons l
      (assignB_ok people cons allowSelf shuffles assignments0 l st' h).1

/-! ### C1: successful assignments are bijections -/

/-- C1: for participants with pairwise-distinct ids, every assignment list
returned by a successful `assign()` (either variant) is a bijection over the
participant set: one entry per participant, the giver ids are exactly the
participant ids, the receiver ids are a permutation of them, and each id
occurs exactly once on each side. -/
theorem C1_bijection (people : List Person) (cons : Constraints)
    (oracle : List Assignment → List Nat) (allowSelf : Bool)
    (shuffles : Nat → List Person) (assignments0 : List Assignment)
    (hnd : (people.map Person.id).Nodup)
    (hor : ∀ cur, (oracle cur).Perm (List.range people.length))
    (hsh : ∀ k, (shuffles k).Perm people) :
    (∀ l, assignA people cons oracle = Except.ok l →
      l.length = people.length ∧
      l.map Assignment.giverId = people.map Person.id ∧
      (l.map Assignment.receiverId).Perm (people.map Person.id) ∧
      ∀ pid ∈ people.map Person.id,
        (l.map Assignment.giverId).count pid = 1 ∧
        (l.map Assignment.receiverId).count pid = 1) ∧
    (∀ l st', assignB people cons allowSelf shuffles assignments0 = (Except.ok l, st') →
      l.length = people.length ∧
      l.map Assignment.giverId = people.map Person.id ∧
      (l.map Assignment.receiverId).Perm (people.map Person.id) ∧
      ∀ pid ∈ people.map Person.id,
        (l.map Assignment.giverId).count pid = 1 ∧
        (l.map Assignment.receiverId).count pid = 1) := by
  have countlemma : ∀ l : List Assignment,
      l.map Assignment.giverId = people.map Person.id →
      (l.map Assignment.receiverId).Perm (people.map Person.id) →
      ∀ pid ∈ people.map Person.id,
        (l.map Assignment.giverId).count pid = 1 ∧
        (l.map Assignment.receiverId).count pid = 1 := by
    intro l hg hr pid hpid
    have hc : (people.map Person.id).count pid = 1 := List.count_eq_one_of_mem hnd hpid
    exact ⟨by rw [hg]; exact hc, by rw [hr.count_eq]; exact hc⟩
  constructor
  · intro l h
    have hm := assignA_ok people cons oracle l h
    unfold findMatching at hm
    have hlen := findMatchingF_some_length people cons oracle _ [] l hm
    have hg : l.map Assignment.giverId = (List.range l.length).map (idAt people) :=
      findMatchingF_some_givers people cons oracle _ [] l hm (by simp)
    rw [hlen, range_map_idAt] at hg
    have horb : ∀ cur r, r ∈ oracle cur → r < people.length := by
      intro cur r hr
      exact List.mem_range.mp ((hor cur).mem_iff.mp hr)
    obtain ⟨js', hrm, hnds', hb', hlen'⟩ :=
      findMatchingF_some_receivers people cons oracle hnd horb _ [] l hm []
        (by simp) (by simp) (by simp)
    have hsub : js' ⊆ List.range people.length := fun j hj => List.mem_range.mpr (hb' j hj)
    have hsp := hnds'.subperm hsub
    have hperm : js'.Perm (List.range people.length) := by
      apply hsp.perm_of_length_le
      rw [List.length_range]
      omega
    have hrperm : (l.map Assignment.receiverId).Perm (people.map Person.id) := by
      rw [hrm, ← range_map_idAt]
      exact hperm.map (idAt people)
    exact ⟨hlen, hg, hrperm, countlemma l hg hrperm⟩
  · intro l st' h
    obtain ⟨hval, k, hk⟩ := assignB_ok people cons allowSelf shuffles assignments0 l st' h
    have hshl : (shuffles k).length = people.length := (hsh k).length_eq
    have hlen : l.length = people.length := by
      rw [hk]; exact generateAssignment_length _ _
    have hg : l.map Assignment.giverId = people.map Person.id := by
      rw [hk]; exact generateAssignment_givers _ _
    have hr : (l.map Assignment.receiverId).Perm (people.map Person.id) := by
      rw [hk, generateAssignment_receivers people (shuffles k) hshl]
      exact (hsh k).map Person.id
    exact ⟨hlen, hg, hr, countlemma l hg hr⟩

/-- Unconstrained two-person configuration for the success witnesses. -/
def consW : Constraints := ⟨[], none⟩

def oracleW : List Assignment → List Nat := fun _ => [0, 1]

def shufflesW : Nat → List Person := fun _ => [pB, pA]

/-- The assignment both variants produce on `people2` with these oracles. -/
def resultW : List Assignment := [⟨"a", "b"⟩, ⟨"b", "a"⟩]

/-- C2 witness: concrete successful runs of both variants on two
unconstrained participants. -/
theorem C2_edges_satisfy_witness :
    (∀ a ∈ resultW, isValidPairing consW a.giverId a.receiverId = true) ∧
    (∀ a ∈ resultW, (false = false → a.giverId ≠ a.receiverId) ∧
      isIllegalPairing consW a.giverId a.receiverId = false ∧
      isWithinSameGroup consW a.giverId a.receiverId = false) :=
  ⟨(C2_edges_satisfy people2 consW oracleW false shufflesW []).1 resultW (by rfl),
   (C2_edges_satisfy people2 consW oracleW false shufflesW []).2 resultW resultW (by rfl)⟩

/-- C1 witness: the backtracking variant's concrete run on two participants
with distinct ids yields a bijection. -/
theorem C1_bijection_witness :
    resultW.length = people2.length ∧
    resultW.map Assignment.giverId = people2.map Person.id ∧
    (resultW.map Assignment.receiverId).Perm (people2.map Person.id) ∧
    (∀ pid ∈ people2.map Person.id,
      (resultW.map Assignment.giverId).count pid = 1 ∧
      (resultW.map Assignment.receiverId).count pid = 1) := by
  have h1 : ([0, 1] : List Nat).Perm (List.range people2.length) := by decide
  have h2 : ([pB, pA] : List Person).Perm people2 := by decide
  exact (C1_bijection people2 consW oracleW false shufflesW [] (by decide)
    (fun _ => h1) (fun _ => h2)).1 resultW (by rfl)

/-! ### C6: soundness of the feasibility pre-check -/

theorem backtrackCombos_mem (n k : Nat) :
    ∀ fuel start current, (∀ x ∈ current, x < start) → (∀ x ∈ current, x < n) →
      current.Nodup →
      ∀ l ∈ backtrackCombos n k fuel start current,
        l.Nodup ∧ (∀ x ∈ l, x < n) := by
  intro fuel
  induction fuel with
  | zero =>
    intro start current h1 h2 h3 l hl
    rw [backtrackCombos] at hl
    by_cases hlen : current.length = k
    · rw [if_pos hlen] at hl
      rw [List.mem_singleton.mp hl]
      exact ⟨h3, h2⟩
    · rw [if_neg hlen] at hl
      simp at hl
  | succ f ih =>
    intro start current h1 h2 h3 l hl
    rw [backtrackCombos] at hl
    by_cases hlen : current.length = k
    · rw [if_pos hlen] at hl
      rw [List.mem_singleton.mp hl]
      exact ⟨h3, h2⟩
    · rw [if_neg hlen] at hl
      obtain ⟨i, hi, hl'⟩ := List.mem_flatMap.mp hl
      obtain ⟨hil, hiu⟩ := List.mem_range'_1.mp hi
      have hin : i < n := by omega
      refine ih (i + 1) (current ++ [i]) ?_ ?_ ?_ l hl'
      · intro x hx
        rcases List.mem_append.mp hx with hm | hm
        · have := h1 x hm
          omega
        · rw [List.mem_singleton.mp hm]
          omega
      · intro x hx
        rcases List.mem_append.mp hx with hm | hm
        · exact h2 x hm
        · rw [List.mem_singleton.mp hm]
          exact hin
      · rw [List.nodup_append]
        refine ⟨h3, List.nodup_singleton i, ?_⟩
        intro x hx hmem
        have hxi : x = i := List.mem_singleton.mp hmem
        have := h1 x hx
        omega

theorem isAssignmentPossible_sound (people : List Person) (cons : Constraints)
    (hex : ValidAssignmentExists people cons) :
    isAssignmentPossible people cons = true := by
  obtain ⟨w, hw, hinj⟩ := hex
  unfold isAssignmentPossible
  rw [List.all_eq_true]
  intro subsetSize _
  rw [List.all_eq_true]
  intro gI hgI
  rw [decide_eq_true_iff]
  unfold getCombinations at hgI
  obtain ⟨hnd, hbound⟩ := backtrackCombos_mem people.length subsetSize _ 0 []
    (by simp) (by simp) (by simp) gI hgI
  have hsub : (gI.map w).toFinset ⊆ receiverSetOf people cons gI := by
    intro x hx
    rw [List.mem_toFinset] at hx
    obtain ⟨g, hg, hgx⟩ := List.mem_map.mp hx
    unfold receiverSetOf
    rw [Finset.mem_filter]
    constructor
    · rw [← hgx]
      exact Finset.mem_range.mpr (hw g (hbound g hg)).1
    · rw [List.any_eq_true]
      refine ⟨g, hg, ?_⟩
      rw [← hgx]
      exact (hw g (hbound g hg)).2
  have hmnd : (gI.map w).Nodup := by
    refine List.Nodup.map_on ?_ hnd
    intro x hx y hy hxy
    exact hinj x y (hbound x hx) (hbound y hy) hxy
  calc gI.length = (gI.map w).toFinset.card := by
        rw [List.toFinset_card_of_nodup hmnd, List.length_map]
    _ ≤ (receiverSetOf people cons gI).card := Finset.card_le_card hsub

/-- C6: the feasibility pre-check is sound — for every configuration
admitting a complete valid assignment, `isAssignmentPossible()` returns
`true`, so it never reports infeasibility for a feasible instance. -/
theorem C6_precheck_sound (people : List Person) (cons : Constraints)
    (hex : ValidAssignmentExists people cons) :
    isAssignmentPossible people cons = true :=
  isAssignmentPossible_sound people cons hex

/-- C6 witness: two unconstrained participants, with the swap assignment. -/
theorem C6_precheck_sound_witness :
    isAssignmentPossible people2 consW = true :=
  C6_precheck_sound people2 consW ⟨fun i => 1 - i, by decide, by
    intro i j hi hj he
    rw [show people2.length = 2 from rfl] at hi hj
    have he' : 1 - i = 1 - j := he
    omega⟩

/-! ### C3: completeness of the backtracking search -/

theorem tryReceivers_mem_some (people : List Person) (cons : Constraints)
    (giverId : String) (assigned : List Nat) (cur : List Assignment)
    (next : List Assignment → Option (List Assignment)) :
    ∀ rl : List Nat, ∀ j : Nat, j ∈ rl →
      assigned.contains j = false →
      isValidPairing cons giverId (idAt people j) = true →
      next (cur ++ [⟨giverId, idAt people j⟩]) ≠ none →
      tryReceivers people cons giverId assigned cur next rl ≠ none := by
  intro rl
  induction rl with
  | nil => intro j hj; simp at hj
  | cons r rs ih =>
    intro j hj h1 h2 h3
    rw [tryReceivers]
    by_cases hcr : assigned.contains r = true
    · rw [if_pos hcr]
      refine ih j ?_ h1 h2 h3
      rcases List.mem_cons.mp hj with he | hm
      · subst he
        rw [h1] at hcr
        exact absurd hcr Bool.false_ne_true
      · exact hm
    · have hcr' : assigned.contains r = false := by
        cases hc : assigned.contains r
        · rfl
        · exact absurd hc hcr
      rw [if_neg hcr]
      cases hv : isValidPairing cons giverId (idAt people r) with
      | false =>
        rw [if_pos (show (!false) = true from rfl)]
        refine ih j ?_ h1 h2 h3
        rcases List.mem_cons.mp hj with he | hm
        · subst he
          rw [h2] at hv
          exact absurd hv.symm Bool.false_ne_true
        · exact hm
      | true =>
        rw [if_neg (by simp)]
        cases hn : next (cur ++ [⟨giverId, idAt people r⟩]) with
        | some res => simp
        | none =>
          rcases List.mem_cons.mp hj with he | hm
          · subst he
            exact absurd hn h3
          · exact ih j hm h1 h2 h3

theorem findMatchingF_complete (people : List Person) (cons : Constraints)
    (oracle : List Assignment → List Nat)
    (hor : ∀ cur, (oracle cur).Perm (List.range people.length)) :
    ∀ fuel : Nat, ∀ cur : List Assignment, cur.length ≤ people.length →
      people.length - cur.length < fuel →
      (∃ w : Nat → Nat,
        (∀ i, cur.length ≤ i → i < people.length →
          w i < people.length ∧
          isValidPairing cons (idAt people i) (idAt people (w i)) = true ∧
          w i ∉ assignedReceiversOf people cur) ∧
        (∀ i j, cur.length ≤ i → i < people.length → cur.length ≤ j → j < people.length →
          w i = w j → i = j)) →
      findMatchingF people cons oracle fuel cur ≠ none := by
  intro fuel
  induction fuel with
  | zero =>
    intro cur _ h2 _
    exact absurd h2 (Nat.not_lt_zero _)
  | succ f ih =>
    intro cur hle hfuel hexi
    obtain ⟨w, hw, hinj⟩ := hexi
    rw [findMatchingF]
    by_cases hlen : cur.length = people.length
    · rw [if_pos hlen]
      simp
    · rw [if_neg hlen]
      have hd : cur.length < people.length := lt_of_le_of_ne hle hlen
      obtain ⟨hjlt, hjval, hjnot⟩ := hw cur.length (le_refl _) hd
      have hjmem : w cur.length ∈ oracle cur :=
        (hor cur).mem_iff.mpr (List.mem_range.mpr hjlt)
      refine tryReceivers_mem_some people cons _ _ _ _ (oracle cur) (w cur.length)
        hjmem ?_ hjval ?_
      · cases hc : (assignedReceiversOf people cur).contains (w cur.length)
        · rfl
        · exfalso
          apply hjnot
          simpa [List.contains] using hc
      · -- the extended partial assignment still admits a completion
        set e : Assignment := ⟨idAt people cur.length, idAt people (w cur.length)⟩ with he
        have hlene : (cur ++ [e]).length = cur.length + 1 := by simp
        -- the index the bookkeeping records for the chosen receiver
        have hj0ex : ∃ x ∈ people, (x.id == idAt people (w cur.length)) = true := by
          refine ⟨people[w cur.length], List.getElem_mem hjlt, ?_⟩
          rw [idAt_eq people (w cur.length) hjlt]
          simp
        have hj0lt : (people.findIdx fun p => p.id == idAt people (w cur.length))
            < people.length := List.findIdx_lt_length.mpr hj0ex
        have hj0id : idAt people (people.findIdx fun p => p.id == idAt people (w cur.length))
            = idAt people (w cur.length) := by
          rw [idAt_eq people _ hj0lt]
          have hpred := @List.findIdx_getElem _ (fun p => p.id == idAt people (w cur.length))
            people hj0lt
          exact eq_of_beq hpred
        have hR : assignedReceiversOf people (cur ++ [e])
            = assignedReceiversOf people cur
              ++ [people.findIdx fun p => p.id == idAt people (w cur.length)] := by
          unfold assignedReceiversOf
          rw [List.map_append]
          rfl
        apply ih (cur ++ [e])
        · rw [hlene]; omega
        · rw [hlene]; omega
        · refine ⟨fun i => if w i = (people.findIdx fun p => p.id == idAt people (w cur.length))
              then w cur.length else w i, ?_, ?_⟩
          · intro i hge hlt
            simp only []
            rw [hlene] at hge
            obtain ⟨h1i, h2i, h3i⟩ := hw i (by omega) hlt
            have hine : w i ≠ w cur.length := by
              intro hcontra
              have := hinj i cur.length (by omega) hlt (le_refl _) hd hcontra
              omega
            by_cases hwij0 : w i = (people.findIdx fun p => p.id == idAt people (w cur.length))
            · rw [if_pos hwij0]
              refine ⟨hjlt, ?_, ?_⟩
              · have : idAt people (w i) = idAt people (w cur.length) := by
                  rw [hwij0, hj0id]
                rw [← this]
                exact h2i
              · rw [hR]
                intro hmem
                rcases List.mem_append.mp hmem with hm | hm
                · exact hjnot hm
                · exact hine (hwij0.trans (List.mem_singleton.mp hm).symm)
            · rw [if_neg hwij0]
              refine ⟨h1i, h2i, ?_⟩
              rw [hR]
              intro hmem
              rcases List.mem_append.mp hmem with hm | hm
              · exact h3i hm
              · exact hwij0 (List.mem_singleton.mp hm)
          · intro i i' hgei hlti hgei' hlti' heq
            simp only [] at heq
            rw [hlene] at hgei hgei'
            by_cases hi0 : w i = (people.findIdx fun p => p.id == idAt people (w cur.length)) <;>
              by_cases hi0' : w i' = (people.findIdx fun p => p.id == idAt people (w cur.length))
            · exact hinj i i' (by omega) hlti (by omega) hlti' (hi0.trans hi0'.symm)
            · rw [if_pos hi0, if_neg hi0'] at heq
              exfalso
              have := hinj i' cur.length (by omega) hlti' (le_refl _) hd heq.symm
              omega
            · rw [if_neg hi0, if_pos hi0'] at heq
              exfalso
              have := hinj i cur.length (by omega) hlti (le_refl _) hd heq
              omega
            · rw [if_neg hi0, if_neg hi0'] at heq
              exact hinj i i' (by omega) hlti (by omega) hlti' heq

/-- C3: whenever at least one complete valid assignment exists and there are
at least 2 participants, the backtracking variant's `assign()` succeeds — it
returns a complete assignment with every edge accepted by the constraint
evaluator and never throws — for every possible outcome of the random
receiver shuffles (any oracle producing a permutation of the index range at
each branch point). -/
theorem C3_backtracking_complete (people : List Person) (cons : Constraints)
    (oracle : List Assignment → List Nat)
    (h2 : 2 ≤ people.length)
    (hor : ∀ cur, (oracle cur).Perm (List.range people.length))
    (hex : ValidAssignmentExists people cons) :
    ∃ l, assignA people cons oracle = Except.ok l ∧
      l.length = people.length ∧
      ∀ a ∈ l, isValidPairing cons a.giverId a.receiverId = true := by
  have hfm : findMatching people cons oracle [] ≠ none := by
    unfold findMatching
    refine findMatchingF_complete people cons oracle hor _ [] (by simp) (by simp) ?_
    obtain ⟨w, hw, hinj⟩ := hex
    refine ⟨w, ?_, ?_⟩
    · intro i _ hi
      exact ⟨(hw i hi).1, (hw i hi).2, by simp [assignedReceiversOf]⟩
    · intro i j _ hi _ hj he
      exact hinj i j hi hj he
  cases hm : findMatching people cons oracle [] with
  | none => exact absurd hm hfm
  | some l =>
    have hng : ¬(people.length ≤ 10 ∧ isAssignmentPossible people cons = false) := by
      rintro ⟨_, hposs⟩
      rw [isAssignmentPossible_sound people cons hex] at hposs
      simp at hposs
    have hmf : findMatchingF people cons oracle
        (people.length + 1 - ([] : List Assignment).length) [] = some l := hm
    refine ⟨l, ?_, ?_, ?_⟩
    · unfold assignA generateAssignmentWithMatching
      rw [if_neg (by omega), if_neg hng, hm]
    · exact findMatchingF_some_length people cons oracle _ [] l hmf
    · exact findMatchingF_some_edges people cons oracle _ [] l hmf (by simp)

/-- C3 witness: two unconstrained participants with the identity shuffle
oracle. -/
theorem C3_backtracking_complete_witness :
    ∃ l, assignA people2 consW oracleW = Except.ok l ∧
      l.length = people2.length ∧
      ∀ a ∈ l, isValidPairing consW a.giverId a.receiverId = true := by
  have h1 : ([0, 1] : List Nat).Perm (List.range people2.length) := by decide
  refine C3_backtracking_complete people2 consW oracleW (by decide) (fun _ => h1)
    ⟨fun i => 1 - i, by decide, ?_⟩
  intro i j hi hj he
  rw [show people2.length = 2 from rfl] at hi hj
  have he' : 1 - i = 1 - j := he
  omega
